import Mathlib

/-!
Verification development for the juno-invitation RAG backend.

The repository couples a retrieval engine (incremental document ingestion,
vector indexing, query-time context assembly, documented in README.md and
rag_hq/VERBOSE_LOGGING_UPDATE.md) with a Node token server
(token-server-node/src/webhooks.ts).  This file gives a shallow embedding of
the state, operations and algorithms those parts describe and proves the
specification's claims about them.  Components whose Python sources are not
in the repository snapshot are modelled from the specification text; each
such definition carries a doc comment saying so.
-/

namespace JunoRag

/-! ## State & Initialization Manager

Embedded from the `ensure_rag_initialized` implementation quoted in
`src/rag_hq/VERBOSE_LOGGING_UPDATE.md` (lines 167-181):

  _is_initialized = False
  async def ensure_rag_initialized():
      global _is_initialized
      if _is_initialized:
          return
      _init_task = asyncio.create_task(initialize_rag())
      await _init_task
      _is_initialized = True
-/

/-- The module-level state of `initialization.py`: the `_is_initialized` flag. -/
structure InitState where
  isInitialized : Bool
  deriving Repr, DecidableEq

/-- Outcome of one sequential call to `ensure_rag_initialized`: the resulting
module state, whether the call re-raised an exception from `initialize_rag`,
and how many `initialize_rag` tasks it created. -/
structure InitOutcome where
  state : InitState
  raised : Bool
  initRuns : Nat
  deriving Repr, DecidableEq

/-- One sequential call to `ensure_rag_initialized`.  `raises` abstracts
whether the awaited `initialize_rag()` task raises an exception.  If the flag
is set, the call returns at once; otherwise it creates and awaits one task:
on an exception the exception propagates and the flag is left untouched (the
assignment `_is_initialized = True` sits after the `await`); on success the
flag is set. -/
def ensureRagInit (raises : Bool) (s : InitState) : InitOutcome :=
  if s.isInitialized then { state := s, raised := false, initRuns := 0 }
  else if raises then { state := s, raised := true, initRuns := 1 }
  else { state := { isInitialized := true }, raised := false, initRuns := 1 }

/-! ### Concurrent interleavings of `ensure_rag_initialized`

Two callers run on one asyncio event loop.  Code between suspension points is
atomic; the only suspension point in the body is the `await _init_task`.  So a
caller has two atomic segments:

  segment 1 (`start`): check `_is_initialized`; if set, return; otherwise
    create a fresh `initialize_rag` task and suspend on it;
  segment 2 (`awaiting`): the task completes, `_is_initialized = True`, return.
-/

/-- Program counter of one caller of `ensure_rag_initialized`. -/
inductive CallerPc
  | start
  | awaiting
  | done
  deriving Repr, DecidableEq

/-- Shared state of two concurrent callers A and B: the module flag, the
number of `initialize_rag` tasks created so far, and each caller's pc. -/
structure ConcState where
  flag : Bool
  initCount : Nat
  pcA : CallerPc
  pcB : CallerPc
  deriving Repr, DecidableEq

/-- Run one atomic segment of caller B (`who = true`) or caller A
(`who = false`), following the quoted body of `ensure_rag_initialized`. -/
def stepConc (s : ConcState) (who : Bool) : ConcState :=
  if who then
    match s.pcB with
    | CallerPc.start =>
        if s.flag then { s with pcB := CallerPc.done }
        else { s with pcB := CallerPc.awaiting, initCount := s.initCount + 1 }
    | CallerPc.awaiting => { s with pcB := CallerPc.done, flag := true }
    | CallerPc.done => s
  else
    match s.pcA with
    | CallerPc.start =>
        if s.flag then { s with pcA := CallerPc.done }
        else { s with pcA := CallerPc.awaiting, initCount := s.initCount + 1 }
    | CallerPc.awaiting => { s with pcA := CallerPc.done, flag := true }
    | CallerPc.done => s

/-- Run a schedule (a list of caller choices) from a state. -/
def runSched (sched : List Bool) (s : ConcState) : ConcState :=
  sched.foldl stepConc s

/-- Both callers about to enter `ensure_rag_initialized`, flag unset. -/
def concInit : ConcState :=
  { flag := false, initCount := 0, pcA := CallerPc.start, pcB := CallerPc.start }

/-- Helper: how many `initialize_rag` tasks a caller at this pc has created. -/
def pcWeight : CallerPc → Nat
  | CallerPc.start => 0
  | CallerPc.awaiting => 1
  | CallerPc.done => 1

lemma pcWeight_le_one (pc : CallerPc) : pcWeight pc ≤ 1 := by
  cases pc <;> simp [pcWeight]

lemma stepConc_count_le (s : ConcState) (who : Bool)
    (h : s.initCount ≤ pcWeight s.pcA + pcWeight s.pcB) :
    (stepConc s who).initCount ≤
      pcWeight (stepConc s who).pcA + pcWeight (stepConc s who).pcB := by
  obtain ⟨f, c, pA, pB⟩ := s
  cases who <;> cases f <;> cases pA <;> cases pB <;>
    simp_all [stepConc, pcWeight] <;> omega

lemma runSched_count_le (sched : List Bool) (s : ConcState)
    (h : s.initCount ≤ pcWeight s.pcA + pcWeight s.pcB) :
    (runSched sched s).initCount ≤ 2 := by
  induction sched generalizing s with
  | nil =>
      have hA := pcWeight_le_one s.pcA
      have hB := pcWeight_le_one s.pcB
      simp only [runSched, List.foldl_nil]
      omega
  | cons who rest ih =>
      simpa [runSched] using ih (stepConc s who) (stepConc_count_le s who h)

lemma runSched_settled (sched : List Bool) (s : ConcState)
    (hf : s.flag = true) (hc : s.initCount = 1)
    (hA : s.pcA = CallerPc.done) (hB : s.pcB ≠ CallerPc.awaiting) :
    (runSched sched s).initCount = 1 := by
  induction sched generalizing s with
  | nil => simpa [runSched] using hc
  | cons who rest ih =>
      have hstep : stepConc s who = s ∨
          stepConc s who = { s with pcB := CallerPc.done } := by
        cases who with
        | false => left; simp [stepConc, hA]
        | true =>
            cases hpcB : s.pcB with
            | start => right; simp [stepConc, hpcB, hf]
            | awaiting => exact absurd hpcB hB
            | done => left; simp [stepConc, hpcB]
      have : (runSched rest (stepConc s who)).initCount = 1 := by
        rcases hstep with h | h
        · rw [h]; exact ih s hf hc hA hB
        · rw [h]
          exact ih _ hf hc hA (by simp)
      simpa [runSched] using this

/-- C10: `ensure_rag_initialized` sets the module flag only after the awaited
`initialize_rag` task completes.  If initialization raises, the flag stays
exactly as it was (in particular unset), the exception is surfaced, and a
subsequent call performs the initialization again; only a completed
initialization records the flag. -/
theorem ensure_init_failure_not_recorded :
    ∀ s : InitState,
      (ensureRagInit true s).state.isInitialized = s.isInitialized
      ∧ (ensureRagInit true ⟨false⟩).raised = true
      ∧ (ensureRagInit true ⟨false⟩).state.isInitialized = false
      ∧ (ensureRagInit false (ensureRagInit true ⟨false⟩).state).initRuns = 1
      ∧ (ensureRagInit false (ensureRagInit true ⟨false⟩).state).state.isInitialized = true
      ∧ (ensureRagInit false ⟨false⟩).state.isInitialized = true := by
  intro s
  obtain ⟨b⟩ := s
  cases b <;> decide

/-- C4 (counterexample): with both callers entering `ensure_rag_initialized`
before either completes, the schedule A-check, B-check, A-finish, B-finish
creates two separate `initialize_rag` tasks — the callers do not share a
single in-flight operation, refuting the claim that the load-or-build is
performed exactly once with concurrent callers awaiting the same operation. -/
theorem ensure_init_concurrent_duplicate_load :
    (runSched [false, true, false, true] concInit).initCount = 2
    ∧ ¬ (runSched [false, true, false, true] concInit).initCount ≤ 1 := by
  decide

/-- C4 (amended): `ensure_rag_initialized` is sequentially idempotent — once a
call has completed and set the flag, any further schedule performs no more
load-or-build (the count stays at 1), and a call entered with the flag set
performs nothing — but concurrent callers are deduplicated only by the flag:
each caller that observes the unset flag creates its own `initialize_rag`
task, bounded by one task per caller (at most 2 for two callers). -/
theorem ensure_init_sequentially_idempotent :
    (∀ sched : List Bool, (runSched (false :: false :: sched) concInit).initCount = 1)
    ∧ (∀ sched : List Bool, (runSched sched concInit).initCount ≤ 2)
    ∧ (∀ raises : Bool, (ensureRagInit raises ⟨true⟩).initRuns = 0
        ∧ (ensureRagInit raises ⟨true⟩).state = ⟨true⟩) := by
  refine ⟨?_, ?_, ?_⟩
  · intro sched
    have h2 : runSched (false :: false :: sched) concInit
        = runSched sched (stepConc (stepConc concInit false) false) := by
      simp [runSched]
    rw [h2]
    exact runSched_settled sched _ (by decide) (by decide) (by decide) (by decide)
  · intro sched
    exact runSched_count_le sched concInit (by decide)
  · intro raises
    cases raises <;> constructor <;> decide

/-! ## Token server: subscription webhook (token-server-node/src/webhooks.ts)

Shallow embedding of the `email_changed` branch of `handleSubscriptionWebhook`
(webhooks.ts lines 67-124) over a Firestore-like state.  The retrieval
engine's stores (chunk metadata, vector index, file history, embedding cache)
are carried in the state so that the handler's frame can be stated.
-/

/-- A document in the `users` collection.  `docId` is the Firestore document
id; `uid` is the Firebase uid field (null until JIT creation); the four
`historyKey*` fields are the wrapped history-encryption-key fields. -/
structure UserRecord where
  docId : String
  email : String
  wpSiteId : String
  uid : Option String
  historyKeyWrapped : Option String
  historyKeyWrappedNonce : Option String
  historyKeyKekVersion : Option String
  historyKeyV : Option String
  updatedAt : Nat
  deriving Repr, DecidableEq

/-- A document in the `conversations` collection (`user_id` field). -/
structure Conversation where
  docId : String
  userId : String
  deriving Repr, DecidableEq

/-- The retrieval engine's persisted stores, bundled so the webhook's frame
condition (no read or write of any of them) can be expressed. -/
structure RagStore where
  chunkMetadata : List String
  vectorIndex : List (String × List Int)
  fileHistory : List (String × String)
  embeddingCache : List (String × List Int)
  deriving Repr, DecidableEq

/-- The slice of Firestore the webhook touches, plus the retrieval stores. -/
structure FirestoreState where
  users : List UserRecord
  conversations : List Conversation
  rag : RagStore
  deriving Repr, DecidableEq

/-- One write queued on the Firestore batch in the `email_changed` branch:
either a conversation delete (webhooks.ts:96-98) or the single update that
deletes the four wrapped-key fields and sets the new email (lines 102-110). -/
inductive BatchOp
  | deleteConversation (docId : String)
  | wipeUserKeys (uid : String) (newEmail : String) (now : Nat)
  deriving Repr, DecidableEq

/-- Effect of the batch update on `users/{uid}` (webhooks.ts:102-110):
`FieldValue.delete()` on the four key fields, new lowercased email,
fresh `updatedAt`. -/
def wipeKeysFn (uid newEmail : String) (now : Nat) (v : UserRecord) : UserRecord :=
  if v.docId == uid then
    { v with historyKeyWrapped := none, historyKeyWrappedNonce := none,
             historyKeyKekVersion := none, historyKeyV := none,
             email := newEmail, updatedAt := now }
  else v

/-- Apply one batched write to the state. -/
def applyOp (s : FirestoreState) : BatchOp → FirestoreState
  | BatchOp.deleteConversation cid =>
      { s with conversations := s.conversations.filter (fun c => c.docId != cid) }
  | BatchOp.wipeUserKeys uid newEmail now =>
      { s with users := s.users.map (wipeKeysFn uid newEmail now) }

/-- Commit a batch: all its writes take effect together. -/
def applyBatch (s : FirestoreState) (ops : List BatchOp) : FirestoreState :=
  ops.foldl applyOp s

/-- The `toLowerCase()` normalization applied to emails in webhooks.ts,
restricted to ASCII; written over the character list so that it evaluates by
kernel reduction. -/
def lowerString (t : String) : String := String.mk (t.data.map Char.toLower)

/-- The `users.where('email','==',oldEmail.toLowerCase()).where('wpSiteId','==',siteId).limit(1)`
query (webhooks.ts:71-75). -/
def findUserByEmail (users : List UserRecord) (emailLower siteId : String) :
    Option UserRecord :=
  users.find? (fun v => v.email == emailLower && v.wpSiteId == siteId)

/-- Result of the `email_changed` branch: the resulting state, whether a user
with the old email was found (otherwise the handler answers 404), and the ops
committed in the single Firestore batch. -/
structure WebhookResult where
  state : FirestoreState
  found : Bool
  batch : List BatchOp
  deriving Repr, DecidableEq

/-- The `email_changed` branch of `handleSubscriptionWebhook`
(webhooks.ts:67-124).  If `oldEmail` or `newEmail` is missing the branch falls
through to the generic subscription path, modelled here as a no-op result.
Otherwise: find the user by old email and site; on a miss answer 404; on a
hit, update that document's email (lines 83-86), and when the record carries a
uid, queue on one batch the deletion of every conversation with
`user_id == uid` and the key-wipe update of `users/{uid}`, then commit the
batch (line 112). -/
def handleEmailChanged (siteId oldEmail newEmail : String) (now : Nat)
    (s : FirestoreState) : WebhookResult :=
  if oldEmail.isEmpty || newEmail.isEmpty then { state := s, found := false, batch := [] }
  else
    match findUserByEmail s.users (lowerString oldEmail) siteId with
    | none => { state := s, found := false, batch := [] }
    | some userDoc =>
      let s1 : FirestoreState :=
        { s with users := s.users.map (fun v =>
            if v.docId == userDoc.docId then
              { v with email := lowerString newEmail, updatedAt := now }
            else v) }
      match userDoc.uid with
      | none => { state := s1, found := true, batch := [] }
      | some uid =>
          let ops :=
            (s1.conversations.filter (fun c => c.userId == uid)).map
                (fun c => BatchOp.deleteConversation c.docId)
              ++ [BatchOp.wipeUserKeys uid (lowerString newEmail) now]
          { state := applyBatch s1 ops, found := true, batch := ops }

lemma applyOp_rag (s : FirestoreState) (op : BatchOp) : (applyOp s op).rag = s.rag := by
  cases op <;> rfl

lemma applyBatch_rag (s : FirestoreState) (ops : List BatchOp) :
    (applyBatch s ops).rag = s.rag := by
  induction ops generalizing s with
  | nil => rfl
  | cons op rest ih =>
      calc (applyBatch s (op :: rest)).rag
          = (applyBatch (applyOp s op) rest).rag := by
            simp [applyBatch, List.foldl_cons]
        _ = (applyOp s op).rag := ih _
        _ = s.rag := applyOp_rag s op

lemma applyOp_set_rag (s : FirestoreState) (r : RagStore) (op : BatchOp) :
    applyOp { s with rag := r } op = { applyOp s op with rag := r } := by
  cases op <;> rfl

lemma applyBatch_set_rag (s : FirestoreState) (r : RagStore) (ops : List BatchOp) :
    applyBatch { s with rag := r } ops = { applyBatch s ops with rag := r } := by
  induction ops generalizing s with
  | nil => rfl
  | cons op rest ih =>
      calc applyBatch { s with rag := r } (op :: rest)
          = applyBatch (applyOp { s with rag := r } op) rest := by
            simp [applyBatch, List.foldl_cons]
        _ = applyBatch { applyOp s op with rag := r } rest := by rw [applyOp_set_rag]
        _ = { applyBatch (applyOp s op) rest with rag := r } := ih _
        _ = { applyBatch s (op :: rest) with rag := r } := by
            simp [applyBatch, List.foldl_cons]

lemma applyBatch_swap_rag (us : List UserRecord) (cs : List Conversation)
    (r0 r : RagStore) (ops : List BatchOp) :
    applyBatch ⟨us, cs, r⟩ ops = { applyBatch ⟨us, cs, r0⟩ ops with rag := r } :=
  applyBatch_set_rag ⟨us, cs, r0⟩ r ops

lemma applyBatch_deleteOps_users (s : FirestoreState) (ops : List BatchOp)
    (h : ∀ op ∈ ops, ∃ cid, op = BatchOp.deleteConversation cid) :
    (applyBatch s ops).users = s.users := by
  induction ops generalizing s with
  | nil => rfl
  | cons op rest ih =>
      obtain ⟨cid, rfl⟩ := h op (List.mem_cons_self op rest)
      calc (applyBatch s (BatchOp.deleteConversation cid :: rest)).users
          = (applyBatch (applyOp s (BatchOp.deleteConversation cid)) rest).users := by
            simp [applyBatch, List.foldl_cons]
        _ = (applyOp s (BatchOp.deleteConversation cid)).users :=
            ih _ (fun op hop => h op (List.mem_cons_of_mem _ hop))
        _ = s.users := rfl

lemma mem_conversations_applyBatch (s : FirestoreState) (ops : List BatchOp)
    (c : Conversation) (hc : c ∈ (applyBatch s ops).conversations) :
    c ∈ s.conversations ∧
      ∀ cid, BatchOp.deleteConversation cid ∈ ops → c.docId ≠ cid := by
  induction ops generalizing s with
  | nil => exact ⟨hc, by simp⟩
  | cons op rest ih =>
      have hc' : c ∈ (applyBatch (applyOp s op) rest).conversations := by
        simpa [applyBatch, List.foldl_cons] using hc
      obtain ⟨h1, h2⟩ := ih (applyOp s op) hc'
      cases op with
      | deleteConversation cid0 =>
          have hfil := List.mem_filter.mp h1
          have hne : c.docId ≠ cid0 := by
            simpa [bne_iff_ne] using hfil.2
          refine ⟨hfil.1, ?_⟩
          intro cid hmem
          rcases List.mem_cons.mp hmem with heq | htail
          · cases heq; exact hne
          · exact h2 cid htail
      | wipeUserKeys uid newEmail now =>
          refine ⟨h1, ?_⟩
          intro cid hmem
          rcases List.mem_cons.mp hmem with heq | htail
          · cases heq
          · exact h2 cid htail

lemma wipeKeysFn_spec (uid em : String) (now : Nat) (v : UserRecord)
    (h : (wipeKeysFn uid em now v).docId = uid) :
    (wipeKeysFn uid em now v).historyKeyWrapped = none
    ∧ (wipeKeysFn uid em now v).historyKeyWrappedNonce = none
    ∧ (wipeKeysFn uid em now v).historyKeyKekVersion = none
    ∧ (wipeKeysFn uid em now v).historyKeyV = none
    ∧ (wipeKeysFn uid em now v).email = em := by
  by_cases hv : (v.docId == uid) = true
  · simp [wipeKeysFn, hv]
  · exfalso
    simp [wipeKeysFn, hv] at h
    exact hv (by simp [h])

lemma handleEmailChanged_rag_congr (siteId oldEmail newEmail : String) (now : Nat)
    (s : FirestoreState) (r : RagStore) :
    handleEmailChanged siteId oldEmail newEmail now { s with rag := r } =
      { state := { (handleEmailChanged siteId oldEmail newEmail now s).state with rag := r },
        found := (handleEmailChanged siteId oldEmail newEmail now s).found,
        batch := (handleEmailChanged siteId oldEmail newEmail now s).batch } := by
  by_cases hguard : (oldEmail.isEmpty || newEmail.isEmpty) = true
  · simp [handleEmailChanged, hguard]
  · simp only [handleEmailChanged, hguard, if_false]
    cases hfind : findUserByEmail s.users (lowerString oldEmail) siteId with
    | none => simp [hfind]
    | some userDoc =>
        cases huid : userDoc.uid with
        | none => simp [hfind, huid]
        | some uidv =>
            simp [hfind, huid]
            rw [applyBatch_swap_rag _ _ s.rag]

/-- C9: on an `email_changed` event whose old email matches an existing user
record carrying a uid, the webhook handler updates that user's email, deletes
every conversation document with the user's uid, and deletes the four wrapped
history-encryption-key fields, with the conversation deletions and the
key-wipe update committed in a single Firestore batch; and it performs no
read or write of the retrieval engine's stores — the rag field passes through
unchanged, and substituting any other rag store changes nothing else in the
result. -/
theorem handleEmailChanged_wipes_history_not_rag
    (siteId oldEmail newEmail : String) (now : Nat) (s : FirestoreState)
    (u : UserRecord) (uidv : String)
    (hold : oldEmail.isEmpty = false) (hnew : newEmail.isEmpty = false)
    (hfind : findUserByEmail s.users (lowerString oldEmail) siteId = some u)
    (huid : u.uid = some uidv) :
    (handleEmailChanged siteId oldEmail newEmail now s).found = true
    ∧ (handleEmailChanged siteId oldEmail newEmail now s).state.rag = s.rag
    ∧ (∀ c ∈ (handleEmailChanged siteId oldEmail newEmail now s).state.conversations,
        c.userId ≠ uidv)
    ∧ (∀ w ∈ (handleEmailChanged siteId oldEmail newEmail now s).state.users,
        w.docId = uidv →
          w.historyKeyWrapped = none ∧ w.historyKeyWrappedNonce = none
          ∧ w.historyKeyKekVersion = none ∧ w.historyKeyV = none
          ∧ w.email = lowerString newEmail)
    ∧ (∀ w ∈ (handleEmailChanged siteId oldEmail newEmail now s).state.users,
        w.docId = u.docId → w.email = lowerString newEmail)
    ∧ BatchOp.wipeUserKeys uidv (lowerString newEmail) now
        ∈ (handleEmailChanged siteId oldEmail newEmail now s).batch
    ∧ (∀ c ∈ s.conversations, c.userId = uidv →
        BatchOp.deleteConversation c.docId
          ∈ (handleEmailChanged siteId oldEmail newEmail now s).batch)
    ∧ (∀ r : RagStore,
        handleEmailChanged siteId oldEmail newEmail now { s with rag := r } =
          { state := { (handleEmailChanged siteId oldEmail newEmail now s).state with rag := r },
            found := true,
            batch := (handleEmailChanged siteId oldEmail newEmail now s).batch }) := by
  have hred : handleEmailChanged siteId oldEmail newEmail now s =
      { state := applyBatch
          { s with users := s.users.map (fun v =>
              if v.docId == u.docId then
                { v with email := lowerString newEmail, updatedAt := now }
              else v) }
          ((s.conversations.filter (fun c => c.userId == uidv)).map
              (fun c => BatchOp.deleteConversation c.docId)
            ++ [BatchOp.wipeUserKeys uidv (lowerString newEmail) now]),
        found := true,
        batch := (s.conversations.filter (fun c => c.userId == uidv)).map
              (fun c => BatchOp.deleteConversation c.docId)
            ++ [BatchOp.wipeUserKeys uidv (lowerString newEmail) now] } := by
    simp [handleEmailChanged, hold, hnew, hfind, huid]
  have husers : (handleEmailChanged siteId oldEmail newEmail now s).state.users =
      s.users.map (fun v =>
        wipeKeysFn uidv (lowerString newEmail) now
          (if v.docId == u.docId then
            { v with email := lowerString newEmail, updatedAt := now }
          else v)) := by
    rw [hred]
    show (applyBatch _ (_ ++ [_])).users = _
    rw [applyBatch, List.foldl_append]
    have hdel : (List.foldl applyOp
        { s with users := s.users.map (fun v =>
            if v.docId == u.docId then
              { v with email := lowerString newEmail, updatedAt := now }
            else v) }
        ((s.conversations.filter (fun c => c.userId == uidv)).map
            (fun c => BatchOp.deleteConversation c.docId))).users =
        s.users.map (fun v =>
            if v.docId == u.docId then
              { v with email := lowerString newEmail, updatedAt := now }
            else v) := by
      apply applyBatch_deleteOps_users
      intro op hop
      obtain ⟨c, _, rfl⟩ := List.mem_map.mp hop
      exact ⟨c.docId, rfl⟩
    simp only [List.foldl_cons, List.foldl_nil, applyOp, hdel, List.map_map]
    rfl
  refine ⟨by rw [hred], ?_, ?_, ?_, ?_, ?_, ?_, ?_⟩
  · rw [hred]
    show (applyBatch _ _).rag = s.rag
    rw [applyBatch_rag]
  · intro c hc heq
    rw [hred] at hc
    obtain ⟨h1, h2⟩ := mem_conversations_applyBatch _ _ _ hc
    have h1' : c ∈ s.conversations := h1
    have hmem : BatchOp.deleteConversation c.docId ∈
        (s.conversations.filter (fun c => c.userId == uidv)).map
            (fun c => BatchOp.deleteConversation c.docId)
          ++ [BatchOp.wipeUserKeys uidv (lowerString newEmail) now] :=
      List.mem_append_left _ (List.mem_map_of_mem _
        (List.mem_filter.mpr ⟨h1', by simp [heq]⟩))
    exact h2 c.docId hmem rfl
  · intro w hw hdoc
    rw [husers] at hw
    obtain ⟨v, _, rfl⟩ := List.mem_map.mp hw
    exact wipeKeysFn_spec _ _ _ _ hdoc
  · intro w hw hdoc
    rw [husers] at hw
    obtain ⟨v, _, rfl⟩ := List.mem_map.mp hw
    by_cases hv : (v.docId == u.docId) = true
    · by_cases hw2 : (({ v with email := lowerString newEmail, updatedAt := now } : UserRecord).docId == uidv) = true
      · simp [wipeKeysFn, hv, hw2]
      · simp [wipeKeysFn, hv, hw2]
    · by_cases hw2 : (v.docId == uidv) = true
      · simp [wipeKeysFn, hv, hw2]
      · exfalso
        simp [wipeKeysFn, hv, hw2] at hdoc
        exact hv (by simp [hdoc])
  · rw [hred]
    exact List.mem_append_right _ (List.mem_singleton.mpr rfl)
  · intro c hc heq
    rw [hred]
    exact List.mem_append_left _ (List.mem_map_of_mem _
      (List.mem_filter.mpr ⟨hc, by simp [heq]⟩))
  · intro r
    rw [handleEmailChanged_rag_congr, hred]

/-- Demo user for the C9 witness: a user document keyed by its uid, holding
wrapped key material. -/
def demoUser : UserRecord :=
  { docId := "uid1", email := "old@x.com", wpSiteId := "site1", uid := some "uid1",
    historyKeyWrapped := some "wrapped", historyKeyWrappedNonce := some "nonce",
    historyKeyKekVersion := some "kek1", historyKeyV := some "v1", updatedAt := 0 }

/-- Demo Firestore slice for the C9 witness. -/
def demoFirestore : FirestoreState :=
  { users := [demoUser],
    conversations := [{ docId := "c1", userId := "uid1" }, { docId := "c2", userId := "bob" }],
    rag := { chunkMetadata := ["chunk-meta"], vectorIndex := [("c1", [1, 2])],
             fileHistory := [("doc.txt", "h1")], embeddingCache := [("h1", [3])] } }

theorem handleEmailChanged_wipes_history_not_rag_witness :
    (handleEmailChanged "site1" "old@x.com" "new@y.com" 7 demoFirestore).found = true
    ∧ (handleEmailChanged "site1" "old@x.com" "new@y.com" 7 demoFirestore).state.rag =
        demoFirestore.rag := by
  have h := handleEmailChanged_wipes_history_not_rag "site1" "old@x.com" "new@y.com" 7
    demoFirestore demoUser "uid1" (by decide) (by decide) (by decide) rfl
  exact ⟨h.1, h.2.1⟩

/-! ## Ingestion Pipeline (rag_hq/database.py, database_operations.py)

The Python sources of the pipeline are not in the repository snapshot; the
definitions below are modelled from the specification (spec sections 4.4 and
8, and the repository's README "Automatic Saving" and logging docs). -/

/-- Modelled from the spec: a chunk metadata record — stable id, owning
document, raw text, token count (data model section 3, "Chunk"). -/
structure ChunkMeta where
  chunkId : String
  docId : String
  text : String
  tokenCount : Nat
  deriving Repr, DecidableEq

/-- Modelled from the spec: the persisted database — the vector index (ANN
slot ↔ chunk id mapping with its vector), the chunk metadata store, and the
log of (vector count, chunk count) pairs recorded at each successful save
("Database saved: 45 vectors, 45 chunks"). -/
structure RagDatabase where
  vectorIndex : List (String × List Int)
  chunkMetadata : List ChunkMeta
  savedSnapshots : List (Nat × Nat)
  deriving Repr, DecidableEq

/-- Modelled from the spec: indexing one embedded chunk appends its vector to
the index and its record to the metadata store together (spec 4.4 step 2). -/
def addChunk (db : RagDatabase) (c : ChunkMeta) (v : List Int) : RagDatabase :=
  { db with vectorIndex := db.vectorIndex ++ [(c.chunkId, v)],
            chunkMetadata := db.chunkMetadata ++ [c] }

/-- Modelled from the spec: a successful save persists the current index and
metadata and records their counts (spec 4.4 step 3). -/
def saveDatabase (db : RagDatabase) : RagDatabase :=
  { db with savedSnapshots :=
      db.savedSnapshots ++ [(db.vectorIndex.length, db.chunkMetadata.length)] }

/-- Modelled from the spec: a chunk whose embedding failed (`none`) is
skipped and the run continues; an embedded chunk is added (spec 4.4/7). -/
def processChunk (db : RagDatabase) : ChunkMeta × Option (List Int) → RagDatabase
  | (c, some v) => addChunk db c v
  | (_, none) => db

/-- Modelled from the spec: process one file's chunks, then save immediately
after the file completes (spec 4.4 step 3: saves are per-file, not batched
across the run). -/
def processFile (db : RagDatabase) (chunks : List (ChunkMeta × Option (List Int))) :
    RagDatabase :=
  saveDatabase (chunks.foldl processChunk db)

/-- Modelled from the spec: a scanned source file — path and content hash
(spec 4.4 step 1). -/
structure SrcFile where
  path : String
  contentHash : String
  deriving Repr, DecidableEq

/-- Modelled from the spec: classification of a scanned file against the
persisted file-history table (spec 4.4 step 1). -/
inductive FileClass
  | added
  | modified
  | unchanged
  deriving Repr, DecidableEq

/-- Modelled from the spec: a file is unchanged exactly when its content hash
matches its entry in the file-history table (glossary "File-history"). -/
def classifyFile (history : List (String × String)) (f : SrcFile) : FileClass :=
  match history.lookup f.path with
  | none => FileClass.added
  | some h => if h = f.contentHash then FileClass.unchanged else FileClass.modified

/-- Modelled from the spec: record the processed file's hash in the
file-history table. -/
def updateHistory (history : List (String × String)) (f : SrcFile) :
    List (String × String) :=
  (f.path, f.contentHash) :: history.filter (fun e => e.1 != f.path)

/-- Modelled from the spec: one pipeline step — unchanged files are skipped
entirely; new/modified files are processed and saved and their hash recorded
(spec 4.4 steps 1-3). -/
def ingestStep (acc : RagDatabase × List (String × String))
    (fc : SrcFile × List (ChunkMeta × Option (List Int))) :
    RagDatabase × List (String × String) :=
  match classifyFile acc.2 fc.1 with
  | FileClass.unchanged => acc
  | _ => (processFile acc.1 fc.2, updateHistory acc.2 fc.1)

/-- Modelled from the spec: an ingestion run over the scanned files, carrying
the database and the file-history table. -/
def ingestRun (db : RagDatabase) (history : List (String × String))
    (files : List (SrcFile × List (ChunkMeta × Option (List Int)))) :
    RagDatabase × List (String × String) :=
  files.foldl ingestStep (db, history)

lemma processChunk_counts (db : RagDatabase) (p : ChunkMeta × Option (List Int))
    (h : db.vectorIndex.length = db.chunkMetadata.length) :
    (processChunk db p).vectorIndex.length = (processChunk db p).chunkMetadata.length := by
  obtain ⟨c, v | v⟩ := p
  · simpa [processChunk] using h
  · simp [processChunk, addChunk, h]

lemma processChunk_snapshots (db : RagDatabase) (p : ChunkMeta × Option (List Int)) :
    (processChunk db p).savedSnapshots = db.savedSnapshots := by
  obtain ⟨c, v | v⟩ := p <;> rfl

lemma foldl_processChunk_counts (chunks : List (ChunkMeta × Option (List Int)))
    (db : RagDatabase) (h : db.vectorIndex.length = db.chunkMetadata.length) :
    (chunks.foldl processChunk db).vectorIndex.length =
        (chunks.foldl processChunk db).chunkMetadata.length
    ∧ (chunks.foldl processChunk db).savedSnapshots = db.savedSnapshots := by
  induction chunks generalizing db with
  | nil => exact ⟨h, rfl⟩
  | cons p rest ih =>
      have := ih (processChunk db p) (processChunk_counts db p h)
      simpa [List.foldl_cons, processChunk_snapshots] using this

lemma processFile_invariant (db : RagDatabase)
    (chunks : List (ChunkMeta × Option (List Int)))
    (hcount : db.vectorIndex.length = db.chunkMetadata.length)
    (hsnaps : ∀ p ∈ db.savedSnapshots, p.1 = p.2) :
    (processFile db chunks).vectorIndex.length =
        (processFile db chunks).chunkMetadata.length
    ∧ (∀ p ∈ (processFile db chunks).savedSnapshots, p.1 = p.2) := by
  obtain ⟨hc, hs⟩ := foldl_processChunk_counts chunks db hcount
  refine ⟨by simpa [processFile, saveDatabase] using hc, ?_⟩
  intro p hp
  simp only [processFile, saveDatabase, hs, List.mem_append, List.mem_singleton] at hp
  rcases hp with hp | rfl
  · exact hsnaps p hp
  · exact hc

lemma ingestRun_invariant (files : List (SrcFile × List (ChunkMeta × Option (List Int))))
    (db : RagDatabase) (history : List (String × String))
    (hcount : db.vectorIndex.length = db.chunkMetadata.length)
    (hsnaps : ∀ p ∈ db.savedSnapshots, p.1 = p.2) :
    (ingestRun db history files).1.vectorIndex.length =
        (ingestRun db history files).1.chunkMetadata.length
    ∧ (∀ p ∈ (ingestRun db history files).1.savedSnapshots, p.1 = p.2) := by
  induction files generalizing db history with
  | nil => exact ⟨hcount, hsnaps⟩
  | cons fc rest ih =>
      simp only [ingestRun, List.foldl_cons]
      rcases hcls : classifyFile history fc.1 with _ | _ | _
      all_goals simp only [ingestStep, hcls]
      · obtain ⟨h1, h2⟩ := processFile_invariant db fc.2 hcount hsnaps
        exact ih _ _ h1 h2
      · obtain ⟨h1, h2⟩ := processFile_invariant db fc.2 hcount hsnaps
        exact ih _ _ h1 h2
      · exact ih _ _ hcount hsnaps

/-- C1: starting from a database satisfying the count invariant, after any
ingestion run every successful save — including the per-file saves performed
after each individual file completes — records equal vector-index and
chunk-metadata counts, and the final counts are equal as well. -/
theorem ingest_saves_counts_match
    (db : RagDatabase) (history : List (String × String))
    (files : List (SrcFile × List (ChunkMeta × Option (List Int))))
    (hcount : db.vectorIndex.length = db.chunkMetadata.length)
    (hsnaps : ∀ p ∈ db.savedSnapshots, p.1 = p.2) :
    (ingestRun db history files).1.vectorIndex.length =
        (ingestRun db history files).1.chunkMetadata.length
    ∧ (∀ p ∈ (ingestRun db history files).1.savedSnapshots, p.1 = p.2) :=
  ingestRun_invariant files db history hcount hsnaps

theorem ingest_saves_counts_match_witness :
    (ingestRun ⟨[], [], []⟩ [("a.txt", "h0")]
        [(⟨"a.txt", "h1"⟩, [(⟨"c1", "a.txt", "hello", 2⟩, some [1, 2]),
                            (⟨"c2", "a.txt", "world", 2⟩, none)])]).1.vectorIndex.length =
      (ingestRun ⟨[], [], []⟩ [("a.txt", "h0")]
        [(⟨"a.txt", "h1"⟩, [(⟨"c1", "a.txt", "hello", 2⟩, some [1, 2]),
                            (⟨"c2", "a.txt", "world", 2⟩, none)])]).1.chunkMetadata.length
    ∧ (∀ p ∈ (ingestRun ⟨[], [], []⟩ [("a.txt", "h0")]
        [(⟨"a.txt", "h1"⟩, [(⟨"c1", "a.txt", "hello", 2⟩, some [1, 2]),
                            (⟨"c2", "a.txt", "world", 2⟩, none)])]).1.savedSnapshots,
        p.1 = p.2) :=
  ingest_saves_counts_match ⟨[], [], []⟩ [("a.txt", "h0")]
    [(⟨"a.txt", "h1"⟩, [(⟨"c1", "a.txt", "hello", 2⟩, some [1, 2]),
                        (⟨"c2", "a.txt", "world", 2⟩, none)])]
    rfl (by simp)

/-- C8: re-running ingestion on an unchanged file set — every scanned file's
content hash matches its entry in the persisted file-history table — adds
zero new chunks: the database (vector index, chunk metadata, save log) and
the file-history table are exactly what they were before the run. -/
theorem ingest_unchanged_is_identity
    (db : RagDatabase) (history : List (String × String))
    (files : List (SrcFile × List (ChunkMeta × Option (List Int))))
    (hunch : ∀ fc ∈ files, history.lookup fc.1.path = some fc.1.contentHash) :
    ingestRun db history files = (db, history) := by
  induction files with
  | nil => rfl
  | cons fc rest ih =>
      have hcls : classifyFile history fc.1 = FileClass.unchanged := by
        simp [classifyFile, hunch fc (List.mem_cons_self fc rest)]
      simp only [ingestRun, List.foldl_cons, ingestStep, hcls]
      exact ih (fun fc' h => hunch fc' (List.mem_cons_of_mem _ h))

theorem ingest_unchanged_is_identity_witness :
    ingestRun ⟨[("c1", [1])], [⟨"c1", "a.txt", "hello", 2⟩], [(1, 1)]⟩
        [("a.txt", "h1"), ("b.txt", "h2")]
        [(⟨"a.txt", "h1"⟩, [(⟨"c9", "a.txt", "x", 1⟩, some [9])]),
         (⟨"b.txt", "h2"⟩, [])] =
      (⟨[("c1", [1])], [⟨"c1", "a.txt", "hello", 2⟩], [(1, 1)]⟩,
        [("a.txt", "h1"), ("b.txt", "h2")]) :=
  ingest_unchanged_is_identity
    ⟨[("c1", [1])], [⟨"c1", "a.txt", "hello", 2⟩], [(1, 1)]⟩
    [("a.txt", "h1"), ("b.txt", "h2")]
    [(⟨"a.txt", "h1"⟩, [(⟨"c9", "a.txt", "x", 1⟩, some [9])]),
     (⟨"b.txt", "h2"⟩, [])]
    (by decide)

/-! ## Embedding Client (rag_hq/embeddings.py)

The Python source is not in the repository snapshot; the retry loop below is
modelled from the specification (spec 4.2 and 7, README "Error Handling":
"3 retry attempts with 85% truncation on each retry", with token counts and
text previews logged, never a silent skip). -/

/-- Modelled from the spec: what the client logs when a chunk is finally
marked failed — the input's length and a text preview. -/
structure EmbedFailureLog where
  inputLength : Nat
  textHead : String
  deriving Repr, DecidableEq

/-- Modelled from the spec: outcome of `embed(text, is_query)` — the vector
with the number of truncate-retries used, or a logged terminal failure. -/
inductive EmbedOutcome
  | success (vec : List Int) (retriesUsed : Nat)
  | failed (log : EmbedFailureLog)
  deriving Repr, DecidableEq

/-- Modelled from the spec: truncate the input to 85% of its prior length
before a retry. -/
def truncate85 (t : String) : String := t.take (t.length * 85 / 100)

/-- The input as attempted on the `n`-th try: `n` applications of the 85%
truncation. -/
def truncIter (t : String) : Nat → String
  | 0 => t
  | n + 1 => truncate85 (truncIter t n)

/-- Modelled from the spec: `embed(text, is_query)` as a bounded-retry state
machine.  `limit` is the service's token limit (token count modelled by
length); a request over the limit is rejected (`EmbeddingRejected`), the
client truncates to 85% and retries, at most 3 times; only after the third
retry is still rejected does it surface a logged failure.  `isQuery` selects
the query path and does not affect the retry logic. -/
def embed (limit : Nat) (ev : String → List Int) (_isQuery : Bool) (t : String) :
    EmbedOutcome :=
  if t.length ≤ limit then EmbedOutcome.success (ev t) 0
  else
    let t1 := truncate85 t
    if t1.length ≤ limit then EmbedOutcome.success (ev t1) 1
    else
      let t2 := truncate85 t1
      if t2.length ≤ limit then EmbedOutcome.success (ev t2) 2
      else
        let t3 := truncate85 t2
        if t3.length ≤ limit then EmbedOutcome.success (ev t3) 3
        else EmbedOutcome.failed { inputLength := t3.length, textHead := t3.take 40 }

/-- Modelled from the spec: ingestion embeds every chunk text in order; a
failed chunk is carried as its logged failure and the run continues with the
remaining chunks (spec 4.4 step 6: never aborting the batch). -/
def ingestChunkTexts (limit : Nat) (ev : String → List Int) (texts : List String) :
    List (String × EmbedOutcome) :=
  texts.map (fun t => (t, embed limit ev false t))

/-- C2: `embed` retries at most 3 times, the input attempted on retry `i` is
the 85%-truncation of the prior attempt's input; a success on attempt `r`
means every earlier attempt exceeded the limit; failure is surfaced only
after all 3 retries are exhausted — every one of the 4 attempted inputs
exceeded the limit — and carries the attempted input's length and a text
preview; and ingestion keeps one outcome per chunk (the failed chunk is
marked, the remaining chunks are still processed). -/
theorem embed_retry_spec (limit : Nat) (ev : String → List Int) (isQuery : Bool)
    (t : String) :
    (match embed limit ev isQuery t with
      | EmbedOutcome.success v r =>
          r ≤ 3 ∧ v = ev (truncIter t r) ∧ (truncIter t r).length ≤ limit
          ∧ ∀ i < r, limit < (truncIter t i).length
      | EmbedOutcome.failed log =>
          (∀ i ≤ 3, limit < (truncIter t i).length)
          ∧ log.inputLength = (truncIter t 3).length
          ∧ log.textHead = (truncIter t 3).take 40)
    ∧ (∀ texts : List String,
        (ingestChunkTexts limit ev texts).length = texts.length
        ∧ ∀ pr ∈ ingestChunkTexts limit ev texts, pr.2 = embed limit ev false pr.1) := by
  constructor
  · have h0 : truncIter t 0 = t := rfl
    have h1 : truncIter t 1 = truncate85 t := rfl
    have h2 : truncIter t 2 = truncate85 (truncate85 t) := rfl
    have h3 : truncIter t 3 = truncate85 (truncate85 (truncate85 t)) := rfl
    simp only [embed]
    split_ifs with ha hb hc hd
    · refine ⟨by omega, by rw [h0], by rwa [h0], ?_⟩
      intro i hi; omega
    · refine ⟨by omega, by rw [h1], by rwa [h1], ?_⟩
      intro i hi
      have : i = 0 := by omega
      subst this; rw [h0]; omega
    · refine ⟨by omega, by rw [h2], by rwa [h2], ?_⟩
      intro i hi
      interval_cases i
      · rw [h0]; omega
      · rw [h1]; omega
    · refine ⟨by omega, by rw [h3], by rwa [h3], ?_⟩
      intro i hi
      interval_cases i
      · rw [h0]; omega
      · rw [h1]; omega
      · rw [h2]; omega
    · refine ⟨?_, by rw [h3], by rw [h3]⟩
      intro i hi
      interval_cases i
      · rw [h0]; omega
      · rw [h1]; omega
      · rw [h2]; omega
      · rw [h3]; omega
  · intro texts
    constructor
    · simp [ingestChunkTexts]
    · intro pr hpr
      obtain ⟨t0, _, rfl⟩ := List.mem_map.mp hpr
      rfl

theorem embed_retry_spec_witness :
    (ingestChunkTexts 4 (fun s => [(s.length : Int)]) ["ab", "abcdefghij"]).length = 2
    ∧ (∀ pr ∈ ingestChunkTexts 4 (fun s => [(s.length : Int)]) ["ab", "abcdefghij"],
        pr.2 = embed 4 (fun s => [(s.length : Int)]) false pr.1) :=
  (embed_retry_spec 4 (fun s => [(s.length : Int)]) false "ab").2 ["ab", "abcdefghij"]

/-! ## Persistence (atomic writes with backup; spec 4.4 steps 3-4)

Modelled from the spec: "Before overwriting on-disk state, write to a
temporary path and only then atomically replace the previous file, keeping
the prior version as a `.backup` copy; a failed write leaves the last-good
state intact."  The `.tmp` / `.backup` siblings match the file list in
rag_general/cleanup_rag_database.sh. -/

/-- Modelled from the spec: one persisted file with its `.tmp` and `.backup`
siblings; contents are byte lists. -/
structure FileSlot where
  current : Option (List Nat)
  backup : Option (List Nat)
  tmpData : Option (List Nat)
  deriving Repr, DecidableEq

/-- Modelled from the spec: phase 1 — write the new contents to the temporary
path.  `writeOk` abstracts whether the write succeeds; a failed write leaves
no committed tmp file and touches nothing else. -/
def writeTmp (data : List Nat) (writeOk : Bool) (f : FileSlot) : FileSlot × Bool :=
  if writeOk then ({ f with tmpData := some data }, true)
  else ({ f with tmpData := none }, false)

/-- Modelled from the spec: phase 2 — atomically replace the previous file
with the tmp file, keeping the prior version as the `.backup` sibling. -/
def commitTmp (f : FileSlot) : FileSlot :=
  match f.tmpData with
  | some d => { current := some d, backup := f.current, tmpData := none }
  | none => f

/-- Modelled from the spec: a whole persistence operation — write to the
temporary path first, and only on success commit; a failure aborts before the
replace. -/
def saveAtomic (data : List Nat) (writeOk : Bool) (f : FileSlot) : FileSlot × Bool :=
  let wr := writeTmp data writeOk f
  if wr.2 then (commitTmp wr.1, true) else (wr.1, false)

/-- Modelled from the spec: the persisted store is a set of named files
(vector index, metadata, caches); saving one file touches no other file. -/
def saveStoreFile (store : List (String × FileSlot)) (nm : String)
    (data : List Nat) (writeOk : Bool) : List (String × FileSlot) :=
  store.map (fun e => if e.1 == nm then (e.1, (saveAtomic data writeOk e.2).1) else e)

/-- C3: every persistence operation writes to the temporary path first —
after phase 1 the current file and its backup are untouched for any write
outcome; a successful save installs the new contents and keeps the prior
version as the `.backup` sibling; a failed write leaves the last-good
current and backup contents unchanged; and saving one named file leaves
every other file of the store exactly as it was. -/
theorem save_atomic_backup_rollback (data : List Nat) (f : FileSlot) :
    (∀ writeOk, (writeTmp data writeOk f).1.current = f.current
        ∧ (writeTmp data writeOk f).1.backup = f.backup)
    ∧ (saveAtomic data true f).1.current = some data
    ∧ (saveAtomic data true f).1.backup = f.current
    ∧ (saveAtomic data false f).1.current = f.current
    ∧ (saveAtomic data false f).1.backup = f.backup
    ∧ (saveAtomic data false f).2 = false
    ∧ (∀ store nm writeOk, ∀ e ∈ store, e.1 ≠ nm →
        e ∈ saveStoreFile store nm data writeOk) := by
  refine ⟨?_, ?_, ?_, ?_, ?_, ?_, ?_⟩
  · intro writeOk; cases writeOk <;> simp [writeTmp]
  · simp [saveAtomic, writeTmp, commitTmp]
  · simp [saveAtomic, writeTmp, commitTmp]
  · simp [saveAtomic, writeTmp]
  · simp [saveAtomic, writeTmp]
  · simp [saveAtomic, writeTmp]
  · intro store nm writeOk e he hne
    have : (if e.1 == nm then ((e.1, (saveAtomic data writeOk e.2).1) : String × FileSlot) else e) = e := by
      simp [hne]
    have hm : (if e.1 == nm then ((e.1, (saveAtomic data writeOk e.2).1) : String × FileSlot) else e)
        ∈ saveStoreFile store nm data writeOk := List.mem_map_of_mem _ he
    rwa [this] at hm

theorem save_atomic_backup_rollback_witness :
    ((writeTmp [7] true ⟨some [1], some [0], none⟩).1.current = some [1]
      ∧ (writeTmp [7] true ⟨some [1], some [0], none⟩).1.backup = some [0])
    ∧ (saveAtomic [7] true ⟨some [1], some [0], none⟩).1.current = some [7]
    ∧ (saveAtomic [7] true ⟨some [1], some [0], none⟩).1.backup = some [1]
    ∧ (saveAtomic [7] false ⟨some [1], some [0], none⟩).1.current = some [1]
    ∧ (saveAtomic [7] false ⟨some [1], some [0], none⟩).1.backup = some [0]
    ∧ ("meta", (⟨some [2], none, none⟩ : FileSlot)) ∈
        saveStoreFile [("vdb", ⟨some [1], some [0], none⟩), ("meta", ⟨some [2], none, none⟩)]
          "vdb" [7] true := by
  have h := save_atomic_backup_rollback [7] (⟨some [1], some [0], none⟩ : FileSlot)
  refine ⟨h.1 true, h.2.1, h.2.2.1, h.2.2.2.1, h.2.2.2.2.1, ?_⟩
  exact h.2.2.2.2.2.2 [("vdb", ⟨some [1], some [0], none⟩), ("meta", ⟨some [2], none, none⟩)]
    "vdb" true ("meta", ⟨some [2], none, none⟩) (by decide) (by decide)

/-! ## Vector index load validation and backup restore (rag_hq/vector_index.py)

The Python source is not in the repository snapshot; modelled from the
specification (spec 4.3 "Validation on load", spec 4.4 failure semantics and
scenario C), with the `.backup` siblings from cleanup_rag_database.sh. -/

/-- Modelled from the spec: the on-disk vector index file — its vectors and
its recorded dimension. -/
structure StoredIndex where
  vectors : List (List Int)
  dim : Nat
  deriving Repr, DecidableEq

/-- Modelled from the spec: result of `load(path)` — a usable handle or the
`IndexCorruption` signal. -/
inductive LoadResult
  | ok (idx : StoredIndex)
  | corruption
  deriving Repr, DecidableEq

/-- Modelled from the spec: validation on load — the vector count must match
the external id-mapping table and the dimension must match the configured
dimension. -/
def validIndex (cfgDim : Nat) (idx : StoredIndex) (idMap : List String) : Bool :=
  (idx.vectors.length == idMap.length) && (idx.dim == cfgDim)

/-- Modelled from the spec: `load(path)` signals `IndexCorruption` instead of
returning a usable handle exactly when validation fails. -/
def loadIndex (cfgDim : Nat) (idx : StoredIndex) (idMap : List String) : LoadResult :=
  if validIndex cfgDim idx idMap then LoadResult.ok idx else LoadResult.corruption

/-- Modelled from the spec: the persisted database directory — the current
index file, its `.backup` sibling, the id-mapping table and the chunk
metadata store. -/
structure DiskState where
  current : StoredIndex
  backup : StoredIndex
  idMap : List String
  metadata : List ChunkMeta
  deriving Repr, DecidableEq

/-- Modelled from the spec: loading with corruption recovery — on
`IndexCorruption` the system restores the most recent `.backup` over the
current file and loads again before continuing; metadata is never touched. -/
def loadWithRestore (cfgDim : Nat) (d : DiskState) : Option StoredIndex × DiskState :=
  match loadIndex cfgDim d.current d.idMap with
  | LoadResult.ok i => (some i, d)
  | LoadResult.corruption =>
      let d2 := { d with current := d.backup }
      match loadIndex cfgDim d2.current d2.idMap with
      | LoadResult.ok i => (some i, d2)
      | LoadResult.corruption => (none, d2)

/-- C5: `load` signals `IndexCorruption` exactly when the vector count does
not match the id-mapping table or the dimension does not match the
configured dimension (and otherwise returns the loaded index as a usable
handle); on detected corruption with a valid `.backup`, the system restores
the backup over the current file and then serves it, and the restore path
never loses chunk metadata. -/
theorem load_validates_and_restores_backup (cfgDim : Nat) (d : DiskState) :
    (∀ idx : StoredIndex, ∀ idMap : List String,
        (loadIndex cfgDim idx idMap = LoadResult.corruption
          ↔ idx.vectors.length ≠ idMap.length ∨ idx.dim ≠ cfgDim)
        ∧ (loadIndex cfgDim idx idMap ≠ LoadResult.corruption
          → loadIndex cfgDim idx idMap = LoadResult.ok idx))
    ∧ (loadWithRestore cfgDim d).2.metadata = d.metadata
    ∧ (loadIndex cfgDim d.current d.idMap = LoadResult.corruption →
        d.backup.vectors.length = d.idMap.length →
        d.backup.dim = cfgDim →
          loadWithRestore cfgDim d = (some d.backup, { d with current := d.backup })) := by
  refine ⟨?_, ?_, ?_⟩
  · intro idx idMap
    constructor
    · constructor
      · intro hcor
        by_contra hcon
        push_neg at hcon
        have hv : validIndex cfgDim idx idMap = true := by
          simp [validIndex, hcon.1, hcon.2]
        simp [loadIndex, hv] at hcor
      · intro hbad
        have hv : validIndex cfgDim idx idMap = false := by
          rcases hbad with h | h <;> simp [validIndex, h]
        simp [loadIndex, hv]
    · intro hne
      cases hload : loadIndex cfgDim idx idMap with
      | corruption => exact absurd hload hne
      | ok i =>
          have : i = idx := by
            by_cases hv : validIndex cfgDim idx idMap = true <;>
              simp [loadIndex, hv] at hload
            exact hload.symm
          rw [this]
  · simp only [loadWithRestore]
    cases loadIndex cfgDim d.current d.idMap with
    | ok i => rfl
    | corruption =>
        cases loadIndex cfgDim d.backup d.idMap with
        | ok i => rfl
        | corruption => rfl
  · intro hcor hlen hdim
    have hv : validIndex cfgDim d.backup d.idMap = true := by
      simp [validIndex, hlen, hdim]
    simp only [loadWithRestore, hcor]
    simp [loadIndex, hv]

theorem load_validates_and_restores_backup_witness :
    (loadIndex 2 ⟨[[1, 2], [3, 4]], 2⟩ ["c1"] = LoadResult.corruption
      ↔ ([[1, 2], [3, 4]] : List (List Int)).length ≠ (["c1"] : List String).length
          ∨ (2 : Nat) ≠ 2)
    ∧ (loadWithRestore 2
        ⟨⟨[[1, 2], [3, 4]], 2⟩, ⟨[[1, 2]], 2⟩, ["c1"], [⟨"c1", "a.txt", "hi", 1⟩]⟩).2.metadata
        = [⟨"c1", "a.txt", "hi", 1⟩]
    ∧ loadWithRestore 2
        ⟨⟨[[1, 2], [3, 4]], 2⟩, ⟨[[1, 2]], 2⟩, ["c1"], [⟨"c1", "a.txt", "hi", 1⟩]⟩
        = (some ⟨[[1, 2]], 2⟩,
            ⟨⟨[[1, 2]], 2⟩, ⟨[[1, 2]], 2⟩, ["c1"], [⟨"c1", "a.txt", "hi", 1⟩]⟩) := by
  have h := load_validates_and_restores_backup 2
    ⟨⟨[[1, 2], [3, 4]], 2⟩, ⟨[[1, 2]], 2⟩, ["c1"], [⟨"c1", "a.txt", "hi", 1⟩]⟩
  exact ⟨(h.1 ⟨[[1, 2], [3, 4]], 2⟩ ["c1"]).1, h.2.1,
    h.2.2 (by decide) (by decide) (by decide)⟩

/-! ## Query Engine (rag_hq/query.py)

The Python source is not in the repository snapshot; modelled from the
specification (spec 4.5): order hits by descending similarity, apply the
minimum-similarity cutoff, keep `k`, and expand each hit by a fixed token
window before/after the chunk's recorded offsets in the owning document. -/

/-- Modelled from the spec: a search hit — chunk id, owning document,
similarity score (scaled to an integer), and the chunk's recorded token
offsets into the owning document. -/
structure Hit where
  chunkId : String
  docId : String
  score : Int
  tokenStart : Nat
  tokenEnd : Nat
  deriving Repr, DecidableEq

/-- Insert a hit into a list sorted by descending score. -/
def insertDesc (a : Hit) : List Hit → List Hit
  | [] => [a]
  | x :: xs => if x.score ≤ a.score then a :: x :: xs else x :: insertDesc a xs

/-- Modelled from the spec: order hits by descending similarity. -/
def sortByScoreDesc (l : List Hit) : List Hit := l.foldr insertDesc []

/-- Modelled from the spec: expansion loads at most the fixed token window
before and after the chunk's recorded offsets in the owning document
(clipped to the document). -/
def expandWindow (docTokens : List String) (beforeW afterW : Nat) (a : Hit) :
    List String :=
  (docTokens.drop (a.tokenStart - beforeW)).take
    (a.tokenEnd + afterW - (a.tokenStart - beforeW))

/-- Modelled from the spec: `query(text, k)` result assembly — sort the hits
by descending similarity, drop hits under the minimum-similarity cutoff,
keep the best `k`, and pair each with its expanded window. -/
def queryRag (hits : List Hit) (k : Nat) (minScore : Int)
    (docTokens : String → List String) (beforeW afterW : Nat) :
    List (Hit × List String) :=
  (((sortByScoreDesc hits).filter (fun a => minScore ≤ a.score)).take k).map
    (fun a => (a, expandWindow (docTokens a.docId) beforeW afterW a))

lemma mem_insertDesc (a y : Hit) (l : List Hit) :
    y ∈ insertDesc a l ↔ y = a ∨ y ∈ l := by
  induction l with
  | nil => simp [insertDesc]
  | cons x xs ih =>
      by_cases hc : x.score ≤ a.score
      · simp [insertDesc, hc]
      · simp only [insertDesc, if_neg hc, List.mem_cons, ih]
        tauto

lemma pairwise_insertDesc (a : Hit) (l : List Hit)
    (h : List.Pairwise (fun x y => y.score ≤ x.score) l) :
    List.Pairwise (fun x y => y.score ≤ x.score) (insertDesc a l) := by
  induction l with
  | nil => simp [insertDesc]
  | cons x xs ih =>
      obtain ⟨hx, hxs⟩ := List.pairwise_cons.mp h
      by_cases hc : x.score ≤ a.score
      · simp only [insertDesc, if_pos hc]
        refine List.Pairwise.cons ?_ h
        intro y hy
        rcases List.mem_cons.mp hy with rfl | hy'
        · exact hc
        · exact le_trans (hx y hy') hc
      · simp only [insertDesc, if_neg hc]
        refine List.Pairwise.cons ?_ (ih hxs)
        intro y hy
        rcases (mem_insertDesc a y xs).mp hy with rfl | hy'
        · omega
        · exact hx y hy'

lemma pairwise_sortByScoreDesc (l : List Hit) :
    List.Pairwise (fun x y => y.score ≤ x.score) (sortByScoreDesc l) := by
  induction l with
  | nil => exact List.Pairwise.nil
  | cons x xs ih => exact pairwise_insertDesc x (sortByScoreDesc xs) ih

lemma mem_sortByScoreDesc (y : Hit) (l : List Hit) :
    y ∈ sortByScoreDesc l ↔ y ∈ l := by
  induction l with
  | nil => simp [sortByScoreDesc]
  | cons x xs ih =>
      simp only [sortByScoreDesc, List.foldr_cons] at ih ⊢
      rw [mem_insertDesc, ih, List.mem_cons]

/-- C6: every result of `query` is ordered by descending similarity score;
each returned hit passed the minimum-similarity cutoff, came from the given
hits, and its expanded text length is bounded by
`chunk_tokens + before_window + after_window` whenever each hit's recorded
chunk span is within `chunk_tokens`. -/
theorem query_hits_sorted_and_expansion_bounded
    (hits : List Hit) (k : Nat) (minScore : Int) (docTokens : String → List String)
    (beforeW afterW chunkTokens : Nat)
    (hspan : ∀ a ∈ hits, a.tokenEnd - a.tokenStart ≤ chunkTokens) :
    List.Pairwise (fun x y => y.1.score ≤ x.1.score)
        (queryRag hits k minScore docTokens beforeW afterW)
    ∧ (∀ e ∈ queryRag hits k minScore docTokens beforeW afterW,
        e.1 ∈ hits ∧ minScore ≤ e.1.score
        ∧ e.2.length ≤ chunkTokens + beforeW + afterW) := by
  constructor
  · apply List.pairwise_map.mpr
    exact ((pairwise_sortByScoreDesc hits).filter _).sublist (List.take_sublist _ _)
  · intro e he
    obtain ⟨a, ha, rfl⟩ := List.mem_map.mp he
    have hatake : a ∈ (sortByScoreDesc hits).filter (fun a => minScore ≤ a.score) :=
      (List.take_sublist _ _).mem ha
    obtain ⟨hasort, hapred⟩ := List.mem_filter.mp hatake
    have hahit : a ∈ hits := (mem_sortByScoreDesc a hits).mp hasort
    refine ⟨hahit, by simpa using hapred, ?_⟩
    have hb := hspan a hahit
    simp only [expandWindow, List.length_take]
    exact le_trans (Nat.min_le_left _ _) (by omega)

theorem query_hits_sorted_and_expansion_bounded_witness :
    List.Pairwise (fun x y => y.1.score ≤ x.1.score)
        (queryRag [⟨"c1", "doc1", 70, 10, 14⟩, ⟨"c2", "doc2", 90, 3, 7⟩]
          2 50 (fun _ => ["w1", "w2", "w3", "w4", "w5", "w6", "w7", "w8"]) 2 2)
    ∧ (∀ e ∈ queryRag [⟨"c1", "doc1", 70, 10, 14⟩, ⟨"c2", "doc2", 90, 3, 7⟩]
          2 50 (fun _ => ["w1", "w2", "w3", "w4", "w5", "w6", "w7", "w8"]) 2 2,
        e.1 ∈ [⟨"c1", "doc1", 70, 10, 14⟩, ⟨"c2", "doc2", 90, 3, 7⟩]
        ∧ (50 : Int) ≤ e.1.score ∧ e.2.length ≤ 5 + 2 + 2) :=
  query_hits_sorted_and_expansion_bounded
    [⟨"c1", "doc1", 70, 10, 14⟩, ⟨"c2", "doc2", 90, 3, 7⟩]
    2 50 (fun _ => ["w1", "w2", "w3", "w4", "w5", "w6", "w7", "w8"]) 2 2 5
    (by decide)

/-! ## Context assembly with summary injection (rag_hq/query.py)

Modelled from the specification (spec 4.5 and data model "DocumentSummary"):
for each distinct document represented among the hits, inject its extended
summary once, positioned before that document's expanded chunks. -/

/-- Modelled from the spec: one unit of the assembled context — a document's
extended summary, or one expanded chunk of a document. -/
inductive ContextItem
  | summary (docId : String)
  | chunkText (docId : String) (text : String)
  deriving Repr, DecidableEq

/-- The document a context item belongs to. -/
def itemDoc : ContextItem → String
  | ContextItem.summary d => d
  | ContextItem.chunkText d _ => d

/-- The distinct documents represented among the hits, in first-appearance
order. -/
def docsOf (hits : List Hit) : List String := (hits.map Hit.docId).dedup

/-- Modelled from the spec: one document's section of the context — its
extended summary first, then that document's expanded chunks. -/
def docBlock (hits : List Hit) (expand : Hit → String) (d : String) :
    List ContextItem :=
  ContextItem.summary d ::
    (hits.filter (fun a => a.docId == d)).map
      (fun a => ContextItem.chunkText d (expand a))

/-- Modelled from the spec: the assembled context — per-document sections,
one per distinct document among the hits. -/
def assembleContext (hits : List Hit) (expand : Hit → String) : List ContextItem :=
  (docsOf hits).flatMap (docBlock hits expand)

lemma itemDoc_of_mem_docBlock (hits : List Hit) (expand : Hit → String)
    (d : String) (x : ContextItem) (hx : x ∈ docBlock hits expand d) :
    itemDoc x = d := by
  rcases List.mem_cons.mp hx with rfl | hx'
  · rfl
  · obtain ⟨a, _, rfl⟩ := List.mem_map.mp hx'
    rfl

lemma not_mem_flatMap_of_itemDoc (hits : List Hit) (expand : Hit → String)
    (l : List String) (x : ContextItem) (hd : itemDoc x ∉ l) :
    x ∉ l.flatMap (docBlock hits expand) := by
  intro hmem
  obtain ⟨d', hd', hx⟩ := List.mem_flatMap.mp hmem
  rw [itemDoc_of_mem_docBlock hits expand d' x hx] at hd
  exact hd hd'

/-- C7: for every document represented among the hits, the assembled context
contains that document's extended summary exactly once, the summary stands
before all of that document's expanded chunks (no chunk of the document
precedes it), and every chunk item of the document sits after it. -/
theorem summary_injected_once_before_chunks (hits : List Hit)
    (expand : Hit → String) (d : String) (a : Hit)
    (ha : a ∈ hits) (hd : a.docId = d) :
    (assembleContext hits expand).count (ContextItem.summary d) = 1
    ∧ ∃ A B, assembleContext hits expand = A ++ ContextItem.summary d :: B
        ∧ (∀ t, ContextItem.chunkText d t ∉ A)
        ∧ (∀ t, ContextItem.chunkText d t ∈ assembleContext hits expand →
            ContextItem.chunkText d t ∈ B) := by
  have hdmem : d ∈ docsOf hits := by
    rw [docsOf, List.mem_dedup, List.mem_map]
    exact ⟨a, ha, hd⟩
  have hnodup : (docsOf hits).Nodup := List.nodup_dedup _
  obtain ⟨l1, l2, hsplit⟩ := List.append_of_mem hdmem
  have hnd : (l1 ++ d :: l2).Nodup := by rw [← hsplit]; exact hnodup
  obtain ⟨h1, h2, hdisj⟩ := List.nodup_append.mp hnd
  have hdl1 : d ∉ l1 := fun hmem =>
    (List.disjoint_left.mp hdisj hmem) (List.mem_cons_self d l2)
  have hdl2 : d ∉ l2 := (List.nodup_cons.mp h2).1
  have hctx : assembleContext hits expand =
      l1.flatMap (docBlock hits expand)
        ++ (ContextItem.summary d ::
            ((hits.filter (fun x => x.docId == d)).map
                (fun x => ContextItem.chunkText d (expand x))
              ++ l2.flatMap (docBlock hits expand))) := by
    rw [assembleContext, hsplit, List.flatMap_append]
    simp [docBlock]
  have hz1 : (l1.flatMap (docBlock hits expand)).count (ContextItem.summary d) = 0 :=
    List.count_eq_zero.mpr
      (not_mem_flatMap_of_itemDoc hits expand l1 (ContextItem.summary d) hdl1)
  have hz2 : ((hits.filter (fun x => x.docId == d)).map
      (fun x => ContextItem.chunkText d (expand x))).count (ContextItem.summary d) = 0 := by
    rw [List.count_eq_zero]
    intro hmem
    obtain ⟨x, _, hx⟩ := List.mem_map.mp hmem
    simp at hx
  have hz3 : (l2.flatMap (docBlock hits expand)).count (ContextItem.summary d) = 0 :=
    List.count_eq_zero.mpr
      (not_mem_flatMap_of_itemDoc hits expand l2 (ContextItem.summary d) hdl2)
  constructor
  · rw [hctx, List.count_append, hz1, List.count_cons, List.count_append, hz2, hz3]
    simp
  · refine ⟨l1.flatMap (docBlock hits expand),
      (hits.filter (fun x => x.docId == d)).map
          (fun x => ContextItem.chunkText d (expand x))
        ++ l2.flatMap (docBlock hits expand), hctx, ?_, ?_⟩
    · intro t
      exact not_mem_flatMap_of_itemDoc hits expand l1 (ContextItem.chunkText d t) hdl1
    · intro t hmem
      rw [hctx] at hmem
      rcases List.mem_append.mp hmem with hA | hrest
      · exact absurd hA
          (not_mem_flatMap_of_itemDoc hits expand l1 (ContextItem.chunkText d t) hdl1)
      · rcases List.mem_cons.mp hrest with heq | hB
        · cases heq
        · exact hB

theorem summary_injected_once_before_chunks_witness :
    (assembleContext
        [⟨"c1", "doc1", 90, 0, 5⟩, ⟨"c2", "doc2", 80, 3, 9⟩, ⟨"c3", "doc1", 70, 10, 14⟩]
        Hit.chunkId).count (ContextItem.summary "doc1") = 1
    ∧ ∃ A B, assembleContext
        [⟨"c1", "doc1", 90, 0, 5⟩, ⟨"c2", "doc2", 80, 3, 9⟩, ⟨"c3", "doc1", 70, 10, 14⟩]
        Hit.chunkId = A ++ ContextItem.summary "doc1" :: B
        ∧ (∀ t, ContextItem.chunkText "doc1" t ∉ A)
        ∧ (∀ t, ContextItem.chunkText "doc1" t ∈ assembleContext
            [⟨"c1", "doc1", 90, 0, 5⟩, ⟨"c2", "doc2", 80, 3, 9⟩, ⟨"c3", "doc1", 70, 10, 14⟩]
            Hit.chunkId →
            ContextItem.chunkText "doc1" t ∈ B) :=
  summary_injected_once_before_chunks
    [⟨"c1", "doc1", 90, 0, 5⟩, ⟨"c2", "doc2", 80, 3, 9⟩, ⟨"c3", "doc1", 70, 10, 14⟩]
    Hit.chunkId "doc1" ⟨"c1", "doc1", 90, 0, 5⟩ (by decide) rfl

end JunoRag
